import Mathlib

/-
Verification of the affine-transform viewport engine of
PythonMapDigtiser (src/PythonImageViewer/imageviewer.py).

The engine is embedded shallowly: the 3x3 homogeneous matrix held in
`Application.mat_affine` becomes the structure `Mat3`, the numpy
operations `np.eye`, `np.dot` and `np.linalg.inv` become `eye3`,
`mul3`/`applyVec` and `invMat` (adjugate over determinant; `np.linalg.inv`
raises `LinAlgError` exactly when the determinant is zero, which the
embedding models with `Except`).  Floating-point numbers are idealised as
exact field arithmetic: the definitions are generic over a linearly
ordered field and are instantiated at ℚ where the claims are decidable
and at ℝ where rotation (cos/sin) is involved.
-/

namespace ImageViewer

/-- A 3x3 matrix, row major: rows (a b c), (d e f), (g h i). -/
@[ext]
structure Mat3 (α : Type) where
  a : α
  b : α
  c : α
  d : α
  e : α
  f : α
  g : α
  h : α
  i : α
deriving DecidableEq

/-- A homogeneous coordinate vector (x, y, z). -/
@[ext]
structure Vec3 (α : Type) where
  x : α
  y : α
  z : α
deriving DecidableEq

variable {α : Type} [LinearOrderedField α]

/-- np.eye(3): the identity matrix. -/
def eye3 : Mat3 α := ⟨1, 0, 0, 0, 1, 0, 0, 0, 1⟩

/-- np.dot on two 3x3 matrices: the standard matrix product. -/
def mul3 (A B : Mat3 α) : Mat3 α :=
  ⟨A.a * B.a + A.b * B.d + A.c * B.g,
   A.a * B.b + A.b * B.e + A.c * B.h,
   A.a * B.c + A.b * B.f + A.c * B.i,
   A.d * B.a + A.e * B.d + A.f * B.g,
   A.d * B.b + A.e * B.e + A.f * B.h,
   A.d * B.c + A.e * B.f + A.f * B.i,
   A.g * B.a + A.h * B.d + A.i * B.g,
   A.g * B.b + A.h * B.e + A.i * B.h,
   A.g * B.c + A.h * B.f + A.i * B.i⟩

/-- np.dot of a 3x3 matrix with a coordinate triple. -/
def applyVec (M : Mat3 α) (v : Vec3 α) : Vec3 α :=
  ⟨M.a * v.x + M.b * v.y + M.c * v.z,
   M.d * v.x + M.e * v.y + M.f * v.z,
   M.g * v.x + M.h * v.y + M.i * v.z⟩

/-- The determinant of a 3x3 matrix (cofactor expansion along the first row). -/
def det3 (M : Mat3 α) : α :=
  M.a * (M.e * M.i - M.f * M.h) - M.b * (M.d * M.i - M.f * M.g)
    + M.c * (M.d * M.h - M.e * M.g)

/-- The matrix inverse, adjugate over determinant.  This is the value
`np.linalg.inv` computes whenever the determinant is nonzero. -/
def invMat (M : Mat3 α) : Mat3 α :=
  let k := det3 M
  ⟨(M.e * M.i - M.f * M.h) / k,
   (M.c * M.h - M.b * M.i) / k,
   (M.b * M.f - M.c * M.e) / k,
   (M.f * M.g - M.d * M.i) / k,
   (M.a * M.i - M.c * M.g) / k,
   (M.c * M.d - M.a * M.f) / k,
   (M.d * M.h - M.e * M.g) / k,
   (M.b * M.g - M.a * M.h) / k,
   (M.a * M.e - M.b * M.d) / k⟩

/-- Application.reset_transform: mat_affine = np.eye(3). -/
def reset_transform : Mat3 α := eye3

/-- The delta matrix built by Application.translate: np.eye(3) with
entries (0,2) and (1,2) set to the offsets. -/
def translateMat (offset_x offset_y : α) : Mat3 α :=
  ⟨1, 0, offset_x, 0, 1, offset_y, 0, 0, 1⟩

/-- Application.translate: mat_affine = np.dot(mat, mat_affine). -/
def translate (offset_x offset_y : α) (M : Mat3 α) : Mat3 α :=
  mul3 (translateMat offset_x offset_y) M

/-- The delta matrix built by Application.scale: np.eye(3) with entries
(0,0) and (1,1) set to the factor. -/
def scaleMat (s : α) : Mat3 α :=
  ⟨s, 0, 0, 0, s, 0, 0, 0, 1⟩

/-- Application.scale: mat_affine = np.dot(mat, mat_affine). -/
def scale (s : α) (M : Mat3 α) : Mat3 α :=
  mul3 (scaleMat s) M

/-- Application.scale_at: translate(-cx,-cy), then scale(s), then
translate(cx,cy), each folded onto the running matrix. -/
def scale_at (s cx cy : α) (M : Mat3 α) : Mat3 α :=
  translate cx cy (scale s (translate (-cx) (-cy) M))

/-- The delta matrix built by Application.rotate: entry (0,0) is
cos(pi*deg/180), entry (1,0) is sin(pi*deg/180), entry (0,1) its
negation and entry (1,1) the cosine again. -/
noncomputable def rotMat (deg : ℝ) : Mat3 ℝ :=
  ⟨Real.cos (Real.pi * deg / 180), -Real.sin (Real.pi * deg / 180), 0,
   Real.sin (Real.pi * deg / 180), Real.cos (Real.pi * deg / 180), 0,
   0, 0, 1⟩

/-- Application.rotate: mat_affine = np.dot(mat, mat_affine). -/
noncomputable def rotate (deg : ℝ) (M : Mat3 ℝ) : Mat3 ℝ :=
  mul3 (rotMat deg) M

/-- Application.rotate_at: translate(-cx,-cy), then rotate(deg), then
translate(cx,cy). -/
noncomputable def rotate_at (deg cx cy : ℝ) (M : Mat3 ℝ) : Mat3 ℝ :=
  translate cx cy (rotate deg (translate (-cx) (-cy) M))

/-- Application.zoom_fit: guard on nonpositive products of extents, then
reset to identity, pick the fit axis by cross-multiplication, scale and
translate by the centring offsets. -/
def zoom_fit (image_width image_height canvas_width canvas_height : α)
    (M : Mat3 α) : Mat3 α :=
  if image_width * image_height ≤ 0 ∨ canvas_width * canvas_height ≤ 0 then
    M
  else if canvas_width * image_height > image_width * canvas_height then
    translate ((canvas_width - image_width * (canvas_height / image_height)) / 2) 0
      (scale (canvas_height / image_height) reset_transform)
  else
    translate 0 ((canvas_height - image_height * (canvas_width / image_width)) / 2)
      (scale (canvas_width / image_width) reset_transform)

/-- The raw inverse-mapped image coordinate that Application.to_image_point
computes: np.dot(np.linalg.inv(mat_affine), (x, y, 1)). -/
def image_point_raw (M : Mat3 α) (x y : α) : Vec3 α :=
  applyVec (invMat M) ⟨x, y, 1⟩

/-- Application.to_image_point.  `img` carries the (width,
height), or none when pil_image is None (the function then answers []).
`np.linalg.inv` raising LinAlgError on a singular matrix is modelled by
`Except.error ()`; the empty python list by `Except.ok []`; a successful
answer by the three components of the numpy result vector. -/
def to_image_point (img : Option (α × α)) (M : Mat3 α) (x y : α) :
    Except Unit (List α) :=
  match img with
  | none => Except.ok []
  | some wh =>
    if det3 M = 0 then Except.error ()
    else
      let p := image_point_raw M x y
      if p.x < 0 ∨ p.y < 0 ∨ p.x > wh.1 ∨ p.y > wh.2 then Except.ok []
      else Except.ok [p.x, p.y, p.z]

instance {ε β : Type} [DecidableEq ε] [DecidableEq β] : DecidableEq (Except ε β) := by
  intro u v
  cases u <;> cases v
  case error.error e1 e2 => exact decidable_of_iff (e1 = e2) (by simp)
  case error.ok e1 a2 => exact isFalse (by simp)
  case ok.error a1 e2 => exact isFalse (by simp)
  case ok.ok a1 a2 => exact decidable_of_iff (a1 = a2) (by simp)

/-! ### Algebraic helper lemmas about the embedded matrix operations -/

theorem mul3_assoc (A B C : Mat3 α) : mul3 (mul3 A B) C = mul3 A (mul3 B C) := by
  cases A; cases B; cases C
  simp only [mul3, Mat3.mk.injEq]
  refine ⟨?_, ?_, ?_, ?_, ?_, ?_, ?_, ?_, ?_⟩ <;> ring

theorem applyVec_mul3 (A B : Mat3 α) (v : Vec3 α) :
    applyVec (mul3 A B) v = applyVec A (applyVec B v) := by
  cases A; cases B; cases v
  simp only [mul3, applyVec, Vec3.mk.injEq]
  refine ⟨?_, ?_, ?_⟩ <;> ring

theorem applyVec_eye3 (v : Vec3 α) : applyVec (eye3 : Mat3 α) v = v := by
  cases v
  simp only [applyVec, eye3, Vec3.mk.injEq]
  refine ⟨?_, ?_, ?_⟩ <;> ring

theorem det3_mul3 (A B : Mat3 α) : det3 (mul3 A B) = det3 A * det3 B := by
  cases A; cases B
  simp only [det3, mul3]
  ring

theorem mul3_invMat (M : Mat3 α) (hM : det3 M ≠ 0) :
    mul3 M (invMat M) = eye3 := by
  cases M
  simp only [det3] at hM
  simp only [mul3, invMat, eye3, det3, Mat3.mk.injEq]
  refine ⟨?_, ?_, ?_, ?_, ?_, ?_, ?_, ?_, ?_⟩ <;> (field_simp; ring)

theorem invMat_mul3 (M : Mat3 α) (hM : det3 M ≠ 0) :
    mul3 (invMat M) M = eye3 := by
  cases M
  simp only [det3] at hM
  simp only [mul3, invMat, eye3, det3, Mat3.mk.injEq]
  refine ⟨?_, ?_, ?_, ?_, ?_, ?_, ?_, ?_, ?_⟩ <;> (field_simp; ring)

theorem applyVec_invMat_right (M : Mat3 α) (hM : det3 M ≠ 0) (v : Vec3 α) :
    applyVec M (applyVec (invMat M) v) = v := by
  rw [← applyVec_mul3, mul3_invMat M hM, applyVec_eye3]

theorem applyVec_invMat_left (M : Mat3 α) (hM : det3 M ≠ 0) (v : Vec3 α) :
    applyVec (invMat M) (applyVec M v) = v := by
  rw [← applyVec_mul3, invMat_mul3 M hM, applyVec_eye3]

theorem applyVec_inj (M : Mat3 α) (hM : det3 M ≠ 0) {u v : Vec3 α}
    (huv : applyVec M u = applyVec M v) : u = v := by
  have h2 := congrArg (applyVec (invMat M)) huv
  rwa [applyVec_invMat_left M hM, applyVec_invMat_left M hM] at h2

theorem invMat_fixed (A M : Mat3 α) (hA : det3 A ≠ 0) (hM : det3 M ≠ 0)
    (v : Vec3 α) (hfix : applyVec A v = v) :
    applyVec (invMat (mul3 A M)) v = applyVec (invMat M) v := by
  have hAM : det3 (mul3 A M) ≠ 0 := by
    rw [det3_mul3]; exact mul_ne_zero hA hM
  apply applyVec_inj (mul3 A M) hAM
  rw [applyVec_invMat_right (mul3 A M) hAM, applyVec_mul3,
    applyVec_invMat_right M hM, hfix]

theorem to_image_point_mul_fixed (img : Option (α × α)) (A M : Mat3 α)
    (cx cy : α) (hA : det3 A ≠ 0) (hM : det3 M ≠ 0)
    (hfix : applyVec A ⟨cx, cy, 1⟩ = ⟨cx, cy, 1⟩) :
    to_image_point img (mul3 A M) cx cy = to_image_point img M cx cy := by
  cases img with
  | none => rfl
  | some wh =>
    have hAM : det3 (mul3 A M) ≠ 0 := by
      rw [det3_mul3]; exact mul_ne_zero hA hM
    have hraw : image_point_raw (mul3 A M) cx cy = image_point_raw M cx cy :=
      invMat_fixed A M hA hM ⟨cx, cy, 1⟩ hfix
    simp only [to_image_point, hAM, hM, if_neg, ite_false, hraw]

theorem det3_translateMat (dx dy : α) : det3 (translateMat dx dy) = 1 := by
  simp only [det3, translateMat]; ring

theorem det3_scaleMat (s : α) : det3 (scaleMat s) = s * s := by
  simp only [det3, scaleMat]; ring

theorem det3_rotMat (deg : ℝ) : det3 (rotMat deg) = 1 := by
  simp only [det3, rotMat]
  have hpyth := Real.sin_sq_add_cos_sq (Real.pi * deg / 180)
  nlinarith [hpyth]

theorem scale_at_eq_mul3 (s cx cy : α) (M : Mat3 α) :
    scale_at s cx cy M =
      mul3 (mul3 (translateMat cx cy) (mul3 (scaleMat s) (translateMat (-cx) (-cy)))) M := by
  simp only [scale_at, translate, scale, mul3_assoc]

theorem rotate_at_eq_mul3 (deg cx cy : ℝ) (M : Mat3 ℝ) :
    rotate_at deg cx cy M =
      mul3 (mul3 (translateMat cx cy) (mul3 (rotMat deg) (translateMat (-cx) (-cy)))) M := by
  simp only [rotate_at, translate, rotate, mul3_assoc]

theorem scale_at_delta_fixes (s cx cy : α) :
    applyVec (mul3 (translateMat cx cy) (mul3 (scaleMat s) (translateMat (-cx) (-cy))))
      ⟨cx, cy, 1⟩ = ⟨cx, cy, 1⟩ := by
  simp only [applyVec_mul3, applyVec, mul3, translateMat, scaleMat, Vec3.mk.injEq]
  refine ⟨?_, ?_, ?_⟩ <;> ring

theorem rotate_at_delta_fixes (deg cx cy : ℝ) :
    applyVec (mul3 (translateMat cx cy) (mul3 (rotMat deg) (translateMat (-cx) (-cy))))
      ⟨cx, cy, 1⟩ = ⟨cx, cy, 1⟩ := by
  simp only [applyVec_mul3, applyVec, mul3, translateMat, rotMat, Vec3.mk.injEq]
  refine ⟨?_, ?_, ?_⟩ <;> ring

theorem det3_scale_at_delta (s cx cy : α) :
    det3 (mul3 (translateMat cx cy) (mul3 (scaleMat s) (translateMat (-cx) (-cy)))) = s * s := by
  simp only [det3_mul3, det3_translateMat, det3_scaleMat]; ring

theorem det3_rotate_at_delta (deg cx cy : ℝ) :
    det3 (mul3 (translateMat cx cy) (mul3 (rotMat deg) (translateMat (-cx) (-cy)))) = 1 := by
  simp only [det3_mul3, det3_translateMat, det3_rotMat]; ring

/-! ### Claim theorems -/

/-- Claim C1: each Viewport mutator replaces the accumulated matrix M by
the product of its delta with M (left-multiplication): translate uses the
standard homogeneous translation matrix with dx, dy in the last column,
scale uses diag(factor, factor, 1), and rotate uses the rotation matrix
with cos θ and ±sin θ, θ = degrees·π/180. -/
theorem translate_scale_rotate_left_multiply (dx dy s deg : ℝ) (M : Mat3 ℝ) :
    translate dx dy M = mul3 ⟨1, 0, dx, 0, 1, dy, 0, 0, 1⟩ M ∧
    scale s M = mul3 ⟨s, 0, 0, 0, s, 0, 0, 0, 1⟩ M ∧
    rotate deg M =
      mul3 ⟨Real.cos (deg * Real.pi / 180), -Real.sin (deg * Real.pi / 180), 0,
            Real.sin (deg * Real.pi / 180), Real.cos (deg * Real.pi / 180), 0,
            0, 0, 1⟩ M := by
  refine ⟨rfl, rfl, ?_⟩
  have harg : Real.pi * deg / 180 = deg * Real.pi / 180 := by ring
  simp only [rotate, rotMat, harg]

/-- Claim C2: for every factor k > 0, every anchor (cx, cy) and every
angle, scale_at and rotate_at leave the image point that to_image_point
assigns to the device point (cx, cy) unchanged, whenever the accumulated
matrix is invertible: the anchor is a fixed point of the composed
transform. -/
theorem scale_at_rotate_at_fix_anchor (k cx cy : ℝ) (img : Option (ℝ × ℝ))
    (M : Mat3 ℝ) (hk : 0 < k) (hM : det3 M ≠ 0) :
    to_image_point img (scale_at k cx cy M) cx cy = to_image_point img M cx cy ∧
    ∀ deg : ℝ,
      to_image_point img (rotate_at deg cx cy M) cx cy = to_image_point img M cx cy := by
  constructor
  · rw [scale_at_eq_mul3]
    exact to_image_point_mul_fixed img _ M cx cy
      (by rw [det3_scale_at_delta]; positivity) hM (scale_at_delta_fixes k cx cy)
  · intro deg
    rw [rotate_at_eq_mul3]
    exact to_image_point_mul_fixed img _ M cx cy
      (by rw [det3_rotate_at_delta]; exact one_ne_zero) hM (rotate_at_delta_fixes deg cx cy)

/-- Witness for C2 at k = 2, anchor (3, 4), an 800x600 image and the
identity matrix. -/
theorem scale_at_rotate_at_fix_anchor_witness :
    (0 : ℝ) < 2 ∧ det3 (eye3 : Mat3 ℝ) ≠ 0 ∧
    to_image_point (some ((800 : ℝ), 600)) (scale_at 2 3 4 eye3) 3 4 =
      to_image_point (some ((800 : ℝ), 600)) eye3 3 4 := by
  have hdet : det3 (eye3 : Mat3 ℝ) ≠ 0 := by
    simp only [det3, eye3]; norm_num
  exact ⟨by norm_num, hdet,
    (scale_at_rotate_at_fix_anchor 2 3 4 (some (800, 600)) eye3 (by norm_num) hdet).1⟩

/-- Claim C3: when image and surface extents are positive, zoom_fit
resets to identity and then fits by height with horizontal centring when
surfaceWidth·imageHeight > imageWidth·surfaceHeight, otherwise by width
with vertical centring; for an 800x600 image on a 400x300 surface the
transform has scale 1/2 and offsets (0, 0), mapping device (0,0) to image
(0,0) and device (400,300) to image (800,600). -/
theorem zoom_fit_formula (iw ih cw ch : ℚ) (M : Mat3 ℚ)
    (hiw : 0 < iw) (hih : 0 < ih) (hcw : 0 < cw) (hch : 0 < ch) :
    (zoom_fit iw ih cw ch M =
      if cw * ih > iw * ch then
        ⟨ch / ih, 0, (cw - iw * (ch / ih)) / 2, 0, ch / ih, 0, 0, 0, 1⟩
      else
        ⟨cw / iw, 0, 0, 0, cw / iw, (ch - ih * (cw / iw)) / 2, 0, 0, 1⟩) ∧
    zoom_fit (800 : ℚ) 600 400 300 M = ⟨1/2, 0, 0, 0, 1/2, 0, 0, 0, 1⟩ ∧
    to_image_point (some ((800 : ℚ), 600)) (zoom_fit 800 600 400 300 M) 0 0 =
      Except.ok [0, 0, 1] ∧
    to_image_point (some ((800 : ℚ), 600)) (zoom_fit 800 600 400 300 M) 400 300 =
      Except.ok [800, 600, 1] := by
  have hguard : ¬((iw * ih ≤ 0) ∨ (cw * ch ≤ 0)) := by
    push_neg
    exact ⟨mul_pos hiw hih, mul_pos hcw hch⟩
  have hconc : zoom_fit (800 : ℚ) 600 400 300 M = ⟨1/2, 0, 0, 0, 1/2, 0, 0, 0, 1⟩ := by
    unfold zoom_fit
    norm_num [translate, scale, mul3, translateMat, scaleMat, reset_transform, eye3]
  refine ⟨?_, hconc, ?_, ?_⟩
  · unfold zoom_fit
    rw [if_neg hguard]
    split_ifs with hcmp
    · simp only [translate, scale, mul3, translateMat, scaleMat, reset_transform,
        eye3, Mat3.mk.injEq]
      refine ⟨?_, ?_, ?_, ?_, ?_, ?_, ?_, ?_, ?_⟩ <;> ring
    · simp only [translate, scale, mul3, translateMat, scaleMat, reset_transform,
        eye3, Mat3.mk.injEq]
      refine ⟨?_, ?_, ?_, ?_, ?_, ?_, ?_, ?_, ?_⟩ <;> ring
  · rw [hconc]
    norm_num [to_image_point, det3, image_point_raw, invMat, applyVec]
  · rw [hconc]
    norm_num [to_image_point, det3, image_point_raw, invMat, applyVec]

/-- Witness for C3 at the scenario extents and the identity matrix. -/
theorem zoom_fit_formula_witness :
    ((0 : ℚ) < 800 ∧ (0 : ℚ) < 600 ∧ (0 : ℚ) < 400 ∧ (0 : ℚ) < 300) ∧
    zoom_fit (800 : ℚ) 600 400 300 eye3 = ⟨1/2, 0, 0, 0, 1/2, 0, 0, 0, 1⟩ := by
  exact ⟨by norm_num,
    (zoom_fit_formula 800 600 400 300 eye3 (by norm_num) (by norm_num)
      (by norm_num) (by norm_num)).2.1⟩

/-- Claim C4 counterexample: on the singular matrix diag(1, 0, 1) the
mapper raises the inversion error (models numpy LinAlgError propagating
out of to_image_point, which has no exception handler); it does not
return the empty "no point" result the claim describes. -/
theorem to_image_point_singular_counterexample :
    to_image_point (some ((800 : ℚ), 600)) ⟨1, 0, 0, 0, 0, 0, 0, 0, 1⟩ 0 0 =
      Except.error () ∧
    to_image_point (some ((800 : ℚ), 600)) ⟨1, 0, 0, 0, 0, 0, 0, 0, 1⟩ 0 0 ≠
      Except.ok [] := by
  have hval : to_image_point (some ((800 : ℚ), 600)) ⟨1, 0, 0, 0, 0, 0, 0, 0, 1⟩ 0 0 =
      Except.error () := by
    norm_num [to_image_point, det3, image_point_raw, invMat, applyVec]
  refine ⟨hval, ?_⟩
  rw [hval]
  simp

/-- Claim C4 (amended): for every device point, when the accumulated
matrix is singular, to_image_point propagates the matrix-inversion error
(numpy LinAlgError) to its caller instead of returning the empty result;
the empty result arises only from the no-image guard or the bounds
check. -/
theorem to_image_point_singular_raises (w h x y : ℚ) (M : Mat3 ℚ)
    (hM : det3 M = 0) :
    to_image_point (some (w, h)) M x y = Except.error () := by
  simp only [to_image_point, hM, if_pos, ite_true]

/-- Witness for the amended C4 on the singular matrix diag(1, 0, 1). -/
theorem to_image_point_singular_raises_witness :
    det3 (⟨1, 0, 0, 0, 0, 0, 0, 0, 1⟩ : Mat3 ℚ) = 0 ∧
    to_image_point (some ((640 : ℚ), 480)) ⟨1, 0, 0, 0, 0, 0, 0, 0, 1⟩ 5 7 =
      Except.error () := by
  exact ⟨by norm_num [det3],
    to_image_point_singular_raises 640 480 5 7 _ (by norm_num [det3])⟩

theorem to_image_point_some_eq (wh : α × α) (M : Mat3 α) (x y : α)
    (hM : det3 M ≠ 0) :
    to_image_point (some wh) M x y =
      if (image_point_raw M x y).x < 0 ∨ (image_point_raw M x y).y < 0 ∨
          (image_point_raw M x y).x > wh.1 ∨ (image_point_raw M x y).y > wh.2
      then Except.ok []
      else Except.ok [(image_point_raw M x y).x, (image_point_raw M x y).y,
        (image_point_raw M x y).z] := by
  show (if det3 M = 0 then Except.error () else _) = _
  rw [if_neg hM]

/-- Claim C5: with a loaded image of extent (w, h) and an invertible
matrix, to_image_point answers the empty "no point" result exactly when
the inverse-mapped coordinate leaves the closed box [0, w] × [0, h];
points mapping onto the closed boundary get a value, and the value
returned is the exact mapped coordinate, unrounded. -/
theorem to_image_point_bounds (w hgt x y : ℚ) (M : Mat3 ℚ) (hM : det3 M ≠ 0) :
    (to_image_point (some (w, hgt)) M x y = Except.ok [] ↔
      (image_point_raw M x y).x < 0 ∨ (image_point_raw M x y).y < 0 ∨
      (image_point_raw M x y).x > w ∨ (image_point_raw M x y).y > hgt) ∧
    ((0 ≤ (image_point_raw M x y).x ∧ 0 ≤ (image_point_raw M x y).y ∧
        (image_point_raw M x y).x ≤ w ∧ (image_point_raw M x y).y ≤ hgt) →
      to_image_point (some (w, hgt)) M x y =
        Except.ok [(image_point_raw M x y).x, (image_point_raw M x y).y,
          (image_point_raw M x y).z]) := by
  rw [to_image_point_some_eq (w, hgt) M x y hM]
  by_cases hout : (image_point_raw M x y).x < 0 ∨ (image_point_raw M x y).y < 0 ∨
      (image_point_raw M x y).x > w ∨ (image_point_raw M x y).y > hgt
  · rw [if_pos hout]
    refine ⟨⟨fun _ => hout, fun _ => rfl⟩, ?_⟩
    intro hb
    exfalso
    obtain ⟨h1, h2, h3, h4⟩ := hb
    rcases hout with hc | hc | hc | hc
    · exact absurd hc (not_lt.mpr h1)
    · exact absurd hc (not_lt.mpr h2)
    · exact absurd hc (not_lt.mpr h3)
    · exact absurd hc (not_lt.mpr h4)
  · rw [if_neg hout]
    refine ⟨⟨fun heq => absurd heq (by simp), fun hc => absurd hc hout⟩, fun _ => rfl⟩

/-- Witness for C5: identity matrix, 100x100 image, device point (100, 0)
 on the exact corner of the boundary: a value with the exact coordinates
is returned, and the no-point characterisation instantiates. -/
theorem to_image_point_bounds_witness :
    det3 (eye3 : Mat3 ℚ) ≠ 0 ∧
    to_image_point (some ((100 : ℚ), 100)) eye3 100 0 =
      Except.ok [(image_point_raw eye3 100 0).x, (image_point_raw eye3 100 0).y,
        (image_point_raw eye3 100 0).z] := by
  have hdet : det3 (eye3 : Mat3 ℚ) ≠ 0 := by norm_num [det3, eye3]
  refine ⟨hdet, (to_image_point_bounds 100 100 100 0 eye3 hdet).2 ?_⟩
  norm_num [image_point_raw, invMat, applyVec, det3, eye3]

/-- Claim C7: on a nonpositive image-extent product or surface-extent
product, zoom_fit leaves the accumulated matrix entirely unchanged. -/
theorem zoom_fit_degenerate_noop (iw ih cw ch : ℚ) (M : Mat3 ℚ)
    (hdeg : iw * ih ≤ 0 ∨ cw * ch ≤ 0) :
    zoom_fit iw ih cw ch M = M := by
  unfold zoom_fit
  rw [if_pos hdeg]

/-- Witness for C7 with a zero-width image and a nontrivial matrix. -/
theorem zoom_fit_degenerate_noop_witness :
    ((0 : ℚ) * 600 ≤ 0 ∨ (400 : ℚ) * 300 ≤ 0) ∧
    zoom_fit (0 : ℚ) 600 400 300 ⟨2, 0, 7, 0, 2, 9, 0, 0, 1⟩ =
      ⟨2, 0, 7, 0, 2, 9, 0, 0, 1⟩ := by
  have hdeg : ((0 : ℚ) * 600 ≤ 0 ∨ (400 : ℚ) * 300 ≤ 0) := by norm_num
  exact ⟨hdeg, zoom_fit_degenerate_noop 0 600 400 300 _ hdeg⟩

/-- Claim C10: the wheel-gesture zoom factors 1.25 and 0.8 are exact
reciprocals in exact arithmetic, so zooming in and back out at the same
device anchor restores the accumulated matrix exactly, for every anchor
and every starting matrix. -/
theorem wheel_zoom_factors_cancel :
    ((1.25 : ℚ) * 0.8 = 1) ∧
    ∀ (cx cy : ℚ) (M : Mat3 ℚ), scale_at 0.8 cx cy (scale_at 1.25 cx cy M) = M := by
  refine ⟨by norm_num, ?_⟩
  intro cx cy M
  cases M
  simp only [scale_at, translate, scale, mul3, translateMat, scaleMat, Mat3.mk.injEq]
  refine ⟨?_, ?_, ?_, ?_, ?_, ?_, ?_, ?_, ?_⟩ <;> ring_nf

/-! ### Sequences of viewport mutations -/

/-- One call to a plain transform mutator of the Application. -/
inductive Op where
  | reset : Op
  | translateOp (dx dy : ℝ) : Op
  | scaleOp (k : ℝ) : Op
  | rotateOp (deg : ℝ) : Op

/-- The effect of one mutator call on mat_affine. -/
noncomputable def applyOp (M : Mat3 ℝ) : Op → Mat3 ℝ
  | Op.reset => reset_transform
  | Op.translateOp dx dy => translate dx dy M
  | Op.scaleOp k => scale k M
  | Op.rotateOp deg => rotate deg M

/-- The matrix after a sequence of mutator calls. -/
noncomputable def applyOps (ops : List Op) (M : Mat3 ℝ) : Mat3 ℝ :=
  ops.foldl applyOp M

/-- Membership in the family of calls claim C6 ranges over: translate,
scale with a nonzero factor, and rotate (no reset). -/
def opPanZoomRotate : Op → Prop
  | Op.reset => False
  | Op.translateOp _ _ => True
  | Op.scaleOp k => k ≠ 0
  | Op.rotateOp _ => True

theorem det3_applyOp (M : Mat3 ℝ) (op : Op) (hop : opPanZoomRotate op)
    (hM : det3 M ≠ 0) : det3 (applyOp M op) ≠ 0 := by
  cases op with
  | reset => exact absurd hop id
  | translateOp dx dy =>
    show det3 (translate dx dy M) ≠ 0
    rw [translate, det3_mul3, det3_translateMat, one_mul]
    exact hM
  | scaleOp k =>
    show det3 (scale k M) ≠ 0
    rw [scale, det3_mul3, det3_scaleMat]
    exact mul_ne_zero (mul_ne_zero hop hop) hM
  | rotateOp deg =>
    show det3 (rotate deg M) ≠ 0
    rw [rotate, det3_mul3, det3_rotMat, one_mul]
    exact hM

theorem det3_applyOps (ops : List Op) :
    ∀ M : Mat3 ℝ, (∀ op ∈ ops, opPanZoomRotate op) → det3 M ≠ 0 →
      det3 (applyOps ops M) ≠ 0 := by
  induction ops with
  | nil => exact fun M _ hM => hM
  | cons op rest ih =>
    intro M hops hM
    show det3 (applyOps rest (applyOp M op)) ≠ 0
    exact ih (applyOp M op) (fun o ho => hops o (List.mem_cons_of_mem op ho))
      (det3_applyOp M op (hops op (List.mem_cons_self op rest)) hM)

theorem det3_eye3 : det3 (eye3 : Mat3 α) ≠ 0 := by
  simp only [det3, eye3]
  norm_num

/-- Claim C6: for every matrix reachable from the identity by translate,
scale-by-a-nonzero-factor and rotate calls, composing the inverse of the
final matrix with the final matrix yields the identity; equivalently,
mapping any device point through the inverse transform and then the
forward transform recovers the point. -/
theorem reachable_inverse_identity (ops : List Op)
    (hops : ∀ op ∈ ops, opPanZoomRotate op) :
    mul3 (invMat (applyOps ops eye3)) (applyOps ops eye3) = eye3 ∧
    ∀ v : Vec3 ℝ,
      applyVec (applyOps ops eye3) (applyVec (invMat (applyOps ops eye3)) v) = v := by
  have hdet : det3 (applyOps ops eye3) ≠ 0 :=
    det3_applyOps ops eye3 hops det3_eye3
  exact ⟨invMat_mul3 _ hdet, fun v => applyVec_invMat_right _ hdet v⟩

/-- Witness for C6 on the sequence translate(3, 5) then scale(2), checked
at the device point (7, 11). -/
theorem reachable_inverse_identity_witness :
    (∀ op ∈ [Op.translateOp 3 5, Op.scaleOp 2], opPanZoomRotate op) ∧
    mul3 (invMat (applyOps [Op.translateOp 3 5, Op.scaleOp 2] eye3))
      (applyOps [Op.translateOp 3 5, Op.scaleOp 2] eye3) = eye3 ∧
    applyVec (applyOps [Op.translateOp 3 5, Op.scaleOp 2] eye3)
      (applyVec (invMat (applyOps [Op.translateOp 3 5, Op.scaleOp 2] eye3))
        ⟨7, 11, 1⟩) = ⟨7, 11, 1⟩ := by
  have hops : ∀ op ∈ [Op.translateOp 3 5, Op.scaleOp 2], opPanZoomRotate op := by
    intro op hop
    rcases List.mem_cons.mp hop with h | h
    · subst h; trivial
    rcases List.mem_cons.mp h with h2 | h2
    · subst h2
      show (2 : ℝ) ≠ 0
      norm_num
    · exact absurd h2 (List.not_mem_nil op)
  exact ⟨hops, (reachable_inverse_identity _ hops).1,
    (reachable_inverse_identity _ hops).2 ⟨7, 11, 1⟩⟩

/-- The bottom row of the matrix is (0, 0, 1): the matrix is a genuine
homogeneous 2D affine map. -/
def affineBottomRow (M : Mat3 α) : Prop :=
  M.g = 0 ∧ M.h = 0 ∧ M.i = 1

theorem affineBottomRow_eye3 : affineBottomRow (eye3 : Mat3 α) :=
  ⟨rfl, rfl, rfl⟩

theorem affineBottomRow_mul3 (A M : Mat3 α) (hA : affineBottomRow A)
    (hM : affineBottomRow M) : affineBottomRow (mul3 A M) := by
  obtain ⟨hA1, hA2, hA3⟩ := hA
  obtain ⟨hM1, hM2, hM3⟩ := hM
  refine ⟨?_, ?_, ?_⟩ <;> simp [mul3, hA1, hA2, hA3, hM1, hM2, hM3]

theorem affineBottomRow_translateMat (dx dy : α) :
    affineBottomRow (translateMat dx dy) :=
  ⟨rfl, rfl, rfl⟩

theorem affineBottomRow_scaleMat (s : α) : affineBottomRow (scaleMat s) :=
  ⟨rfl, rfl, rfl⟩

theorem affineBottomRow_rotMat (deg : ℝ) : affineBottomRow (rotMat deg) :=
  ⟨rfl, rfl, rfl⟩

theorem affineBottomRow_applyOp (M : Mat3 ℝ) (op : Op)
    (hM : affineBottomRow M) : affineBottomRow (applyOp M op) := by
  cases op with
  | reset => exact affineBottomRow_eye3
  | translateOp dx dy =>
    exact affineBottomRow_mul3 _ _ (affineBottomRow_translateMat dx dy) hM
  | scaleOp k => exact affineBottomRow_mul3 _ _ (affineBottomRow_scaleMat k) hM
  | rotateOp deg => exact affineBottomRow_mul3 _ _ (affineBottomRow_rotMat deg) hM

/-- Claim C9: after any sequence of reset, translate, scale and rotate
calls starting from the identity, the bottom row of mat_affine is exactly
(0, 0, 1); the anchored mutators and zoom_fit, being built from those
calls, preserve the same invariant. -/
theorem mat_affine_bottom_row (ops : List Op) (k cx cy deg iw ih cw ch : ℝ)
    (M : Mat3 ℝ) :
    affineBottomRow (applyOps ops eye3) ∧
    (affineBottomRow M → affineBottomRow (scale_at k cx cy M)) ∧
    (affineBottomRow M → affineBottomRow (rotate_at deg cx cy M)) ∧
    (affineBottomRow M → affineBottomRow (zoom_fit iw ih cw ch M)) := by
  refine ⟨?_, ?_, ?_, ?_⟩
  · have hgen : ∀ (l : List Op) (N : Mat3 ℝ), affineBottomRow N →
        affineBottomRow (applyOps l N) := by
      intro l
      induction l with
      | nil => exact fun N hN => hN
      | cons op rest ih =>
        intro N hN
        exact ih (applyOp N op) (affineBottomRow_applyOp N op hN)
    exact hgen ops eye3 affineBottomRow_eye3
  · intro hM
    exact affineBottomRow_mul3 _ _ (affineBottomRow_translateMat cx cy)
      (affineBottomRow_mul3 _ _ (affineBottomRow_scaleMat k)
        (affineBottomRow_mul3 _ _ (affineBottomRow_translateMat (-cx) (-cy)) hM))
  · intro hM
    exact affineBottomRow_mul3 _ _ (affineBottomRow_translateMat cx cy)
      (affineBottomRow_mul3 _ _ (affineBottomRow_rotMat deg)
        (affineBottomRow_mul3 _ _ (affineBottomRow_translateMat (-cx) (-cy)) hM))
  · intro hM
    unfold zoom_fit
    split_ifs
    · exact hM
    · exact affineBottomRow_mul3 _ _ (affineBottomRow_translateMat _ _)
        (affineBottomRow_mul3 _ _ (affineBottomRow_scaleMat _) affineBottomRow_eye3)
    · exact affineBottomRow_mul3 _ _ (affineBottomRow_translateMat _ _)
        (affineBottomRow_mul3 _ _ (affineBottomRow_scaleMat _) affineBottomRow_eye3)

/-- Witness for C9 on the sequence reset, translate(1, 2), rotate(90),
scale(3), and on an anchored scale of the identity. -/
theorem mat_affine_bottom_row_witness :
    affineBottomRow
      (applyOps [Op.reset, Op.translateOp 1 2, Op.rotateOp 90, Op.scaleOp 3] eye3) ∧
    affineBottomRow (eye3 : Mat3 ℝ) ∧
    affineBottomRow (scale_at 2 100 100 (eye3 : Mat3 ℝ)) := by
  have hbase : affineBottomRow (eye3 : Mat3 ℝ) := affineBottomRow_eye3
  exact ⟨(mat_affine_bottom_row [Op.reset, Op.translateOp 1 2, Op.rotateOp 90,
      Op.scaleOp 3] 2 100 100 0 1 1 1 1 eye3).1, hbase,
    (mat_affine_bottom_row [] 2 100 100 0 1 1 1 1 eye3).2.1 hbase⟩

/-! ### Point export (menu_export_clicked) -/

/-- The Application state that menu_export_clicked reads: the calibration
triple (dpi, map_scale, mpi), each None until set, the collected point
lines and the current filename.  In the source dpi and map_scale hold
either dialog strings or numbers; only their values as printed and their
presence matter here, so they are carried as strings, while mpi (computed
as float(map_scale) * 20.1168) is carried as an exact rational. -/
structure AppState where
  dpi : Option String
  map_scale : Option String
  mpi : Option ℚ
  points_list : List String
  filename : String
deriving DecidableEq

/-- What a call to menu_export_clicked does besides reading state: warn
and stop, stop because the user declined the confirmation dialog, or
write the export file with the given lines. -/
inductive ExportOutcome where
  | warned : ExportOutcome
  | cancelled : ExportOutcome
  | wrote (lines : List String) : ExportOutcome
deriving DecidableEq

/-- The lines menu_export_clicked writes: the calibration header, the
calibration values, the point column header, then one line per point. -/
def export_lines (st : AppState) : List String :=
  ["dpi, mpi, scale",
   st.dpi.getD "" ++ ", " ++ toString (st.mpi.getD 0) ++ ", " ++ st.map_scale.getD "",
   "Px, Py, Name"] ++ st.points_list

/-- Application.menu_export_clicked: warn and return when any of dpi,
map_scale, mpi is None; otherwise ask for confirmation (`response`) and
write the file only on "yes".  The function assigns no state, which the
returned AppState component records. -/
def menu_export_clicked (st : AppState) (response : Bool) :
    AppState × ExportOutcome :=
  if st.dpi = none ∨ st.map_scale = none ∨ st.mpi = none then
    (st, ExportOutcome.warned)
  else if response then (st, ExportOutcome.wrote (export_lines st))
  else (st, ExportOutcome.cancelled)

/-- Claim C8: when any of dpi, map scale or mpi is unset, point export is
refused with a user-visible warning, no file is written and the state is
unchanged; a file is written only when all three calibration values are
present. -/
theorem export_requires_calibration (st : AppState) (response : Bool) :
    ((st.dpi = none ∨ st.map_scale = none ∨ st.mpi = none) →
      menu_export_clicked st response = (st, ExportOutcome.warned)) ∧
    (∀ ls : List String,
      (menu_export_clicked st response).2 = ExportOutcome.wrote ls →
        st.dpi ≠ none ∧ st.map_scale ≠ none ∧ st.mpi ≠ none) ∧
    (menu_export_clicked st response).1 = st := by
  unfold menu_export_clicked
  split_ifs with h1 h2
  · exact ⟨fun _ => rfl, fun ls hls => by simp at hls, rfl⟩
  · push_neg at h1
    exact ⟨fun hmiss => absurd (by tauto) h1.1, fun ls _ => h1, rfl⟩
  · exact ⟨fun hmiss => absurd hmiss h1, fun ls hls => by simp at hls, rfl⟩

/-- Witness for C8: a state with dpi unset is refused with the warning. -/
theorem export_requires_calibration_witness :
    ((⟨none, some "5", some 100, [], "map.png"⟩ : AppState).dpi = none ∨
      (⟨none, some "5", some 100, [], "map.png"⟩ : AppState).map_scale = none ∨
      (⟨none, some "5", some 100, [], "map.png"⟩ : AppState).mpi = none) ∧
    menu_export_clicked ⟨none, some "5", some 100, [], "map.png"⟩ true =
      (⟨none, some "5", some 100, [], "map.png"⟩, ExportOutcome.warned) :=
  ⟨Or.inl rfl, (export_requires_calibration _ true).1 (Or.inl rfl)⟩

end ImageViewer
